import Mathlib

/-!
# Verification of the dask-tutorial notebooks' task-graph model

The repository consists of tutorial notebooks exercising a delayed/task-graph
execution API.  The combine-step arithmetic of the "Mean CO3 Per Core"
example is embedded directly from the notebook code; the task-graph engine
that the notebooks exercise (lazy task construction, graph building,
pluggable scheduling backends) is modelled from the specification, which
reconstructs it explicitly.
-/

namespace DaskSpec

/-! ## The combine step of the "Mean CO3 Per Core" example

Embedded from `src/unnamed/part_000`, cell at lines 598-617: per-file means
and counts are accumulated into lists `means` and `counts`, and the combine
step computes `mean_CO3 = np.mean(means)` and `n_dpoints = sum(counts)`.
Arithmetic is modelled over `ℚ`.
-/

/-- The function `np.mean(xs)`: the arithmetic mean of a list (0 for the empty list,
matching the convention `0 / 0 = 0` of `ℚ` division). -/
def npMean (xs : List ℚ) : ℚ := xs.sum / xs.length

/-- The combine step `mean_CO3 = np.mean(means)` (part_000 line 616): the notebook combines
the per-core means by an unweighted mean of means. -/
def mean_CO3 (means : List ℚ) : ℚ := npMean means

/-- The combine step `n_dpoints = sum(counts)` (part_000 line 617). -/
def n_dpoints (counts : List ℕ) : ℕ := counts.sum

/-- The combine rule the specification mandates:
`mean_total = sum(mean_i * count_i) / sum(count_i)`. -/
def weightedCombine (means : List ℚ) (counts : List ℕ) : ℚ :=
  ((means.zip counts).map (fun p => p.1 * (p.2 : ℚ))).sum / ((counts.sum : ℕ) : ℚ)

/-- The ground truth: the mean of the concatenated, ungrouped dataset. -/
def concatMean (chunks : List (List ℚ)) : ℚ := npMean chunks.flatten

/-- The specification's scenario dataset: three chunks with counts
{10, 9, 8} and constant per-chunk values giving means {80, 90, 85}. -/
def scenarioChunks : List (List ℚ) :=
  [List.replicate 10 80, List.replicate 9 90, List.replicate 8 85]

/-- C1: the claim fails on the code.  At the specification's own scenario
(three chunks, counts {10, 9, 8}, means {80.0, 90.0, 85.0}) the notebook's
combine step `mean_CO3 = np.mean(means)` returns the naive average 85,
while the weighted-average rule mandated by the claim returns
(10*80 + 9*90 + 8*85)/27 = 2290/27, which is the mean of the concatenated
ungrouped dataset; the two differ, so the code's combine step does not use
the weighted-average rule and does not equal the concatenated mean.  The
total count `n_dpoints` is 27 as claimed. -/
theorem mean_CO3_naive_combine_bug :
    mean_CO3 [80, 90, 85] = 85 ∧
    n_dpoints [10, 9, 8] = 27 ∧
    weightedCombine [80, 90, 85] [10, 9, 8] = 2290 / 27 ∧
    concatMean scenarioChunks = 2290 / 27 ∧
    mean_CO3 [80, 90, 85] ≠ concatMean scenarioChunks ∧
    mean_CO3 [80, 90, 85] ≠ weightedCombine [80, 90, 85] [10, 9, 8] := by
  refine ⟨?_, ?_, ?_, ?_, ?_, ?_⟩ <;>
    norm_num [mean_CO3, npMean, n_dpoints, weightedCombine, concatMean,
      scenarioChunks, List.replicate, List.zip]

/-! ## The delayed task model

Modelled from the spec: `delay(callable)` returns a wrapper; calling the
wrapper with arguments produces a Task node instead of executing
immediately; attribute access, indexing, and arithmetic operators on a Task
produce new Tasks wrapping the corresponding operation (the spec's tagged
variants CALL, GETATTR, GETITEM, BINOP); `compute()` evaluates the graph.
The wrapped callables are the ones the notebooks delay. -/

/-- The callables wrapped by `delayed` in the notebooks: `pd.read_csv`,
`len`, `sum`, `np.size`, `np.arange`. -/
inductive Fn where
  | read_csv
  | lenFn
  | sumFn
  | np_size
  | np_arange
deriving DecidableEq, Repr

/-- Binary operators intercepted on deferred values. -/
inductive BOp where
  | add
deriving DecidableEq, Repr

/-- Modelled from the spec: a deferred Task value — a literal, a list of
tasks, a CALL of a wrapped callable, or a derived GETATTR / GETITEM /
method-call / BINOP node. -/
inductive DTask where
  | litInt : Int → DTask
  | litStr : String → DTask
  | nilT : DTask
  | consT : DTask → DTask → DTask
  | call : Fn → DTask → DTask
  | getattr : DTask → String → DTask
  | getitem : DTask → DTask → DTask
  | method : DTask → String → DTask
  | binop : BOp → DTask → DTask → DTask
deriving DecidableEq, Repr

/-- Runtime values: Python ints, floats (as `ℚ`), strings, dataframes
(modelled as the list of rows of their one relevant column), lists, and an
error value for ill-typed applications. -/
inductive Value where
  | int : Int → Value
  | rat : ℚ → Value
  | str : String → Value
  | frame : List ℚ → Value
  | vlist : List Value → Value
  | err : Value

/-- Coerce a value to an integer (`sum` over a list of lengths). -/
def Value.toInt : Value → Int
  | .int n => n
  | _ => 0

/-- Semantics of the wrapped callables, relative to a file system `fs`
mapping a CSV file name to the rows of its relevant column. -/
def applyFn (fs : String → List ℚ) : Fn → Value → Value
  | .read_csv, .str fn => .frame (fs fn)
  | .lenFn, .frame xs => .int xs.length
  | .lenFn, .vlist vs => .int vs.length
  | .sumFn, .vlist vs => .int (vs.map Value.toInt).sum
  | .np_size, .frame xs => .int xs.length
  | .np_arange, .int n => .frame ((List.range n.toNat).map (fun k => (k : ℚ)))
  | _, _ => .err

/-- Semantics of attribute access: `df.CO3` selects the CO3 column. -/
def getattrVal (v : Value) (a : String) : Value :=
  match v, a with
  | .frame xs, "CO3" => .frame xs
  | _, _ => .err

/-- Semantics of indexing: `df['CO3']` selects the CO3 column. -/
def getitemVal (v w : Value) : Value :=
  match v, w with
  | .frame xs, .str "CO3" => .frame xs
  | _, _ => .err

/-- Semantics of method calls: `series.mean()`. -/
def methodVal (v : Value) (m : String) : Value :=
  match v, m with
  | .frame xs, "mean" => .rat (npMean xs)
  | _, _ => .err

/-- Semantics of binary operators: integer addition, and numpy-style
elementwise addition of a scalar to an array. -/
def binopVal : BOp → Value → Value → Value
  | .add, .int a, .int b => .int (a + b)
  | .add, .frame xs, .int k => .frame (xs.map (fun x => x + (k : ℚ)))
  | .add, _, _ => .err

/-- Prepend a value to a list value. -/
def consVal (v : Value) : Value → Value
  | .vlist vs => .vlist (v :: vs)
  | _ => .err

/-- The semantics of `compute()`: evaluate a Task graph, returning the value together with
the log of wrapped callables executed, in execution order. -/
def evalT (fs : String → List ℚ) : DTask → Value × List Fn
  | .litInt n => (.int n, [])
  | .litStr s => (.str s, [])
  | .nilT => (.vlist [], [])
  | .consT h t =>
      let (v, l₁) := evalT fs h
      let (w, l₂) := evalT fs t
      (consVal v w, l₁ ++ l₂)
  | .call f a =>
      let (v, l) := evalT fs a
      (applyFn fs f v, l ++ [f])
  | .getattr t a =>
      let (v, l) := evalT fs t
      (getattrVal v a, l)
  | .getitem t u =>
      let (v, l₁) := evalT fs t
      let (w, l₂) := evalT fs u
      (getitemVal v w, l₁ ++ l₂)
  | .method t m =>
      let (v, l) := evalT fs t
      (methodVal v m, l)
  | .binop b t u =>
      let (v, l₁) := evalT fs t
      let (w, l₂) := evalT fs u
      (binopVal b v w, l₁ ++ l₂)

/-- Modelled from the spec: calling the wrapper returned by
`delay(callable)` produces a CALL Task node instead of executing; the
second component logs the wrapped callables executed by the call itself,
and producing the node executes none. -/
def delayedApp (f : Fn) (arg : DTask) : DTask × List Fn := (.call f arg, [])

/-- Modelled from the spec: attribute access on a Task produces a GETATTR
node, executing nothing. -/
def taskGetattr (t : DTask) (a : String) : DTask × List Fn := (.getattr t a, [])

/-- Modelled from the spec: indexing a Task produces a GETITEM node,
executing nothing. -/
def taskGetitem (t u : DTask) : DTask × List Fn := (.getitem t u, [])

/-- Modelled from the spec: a method call on a Task produces a
method-call node, executing nothing. -/
def taskMethod (t : DTask) (m : String) : DTask × List Fn := (.method t m, [])

/-- Modelled from the spec: an arithmetic operator on a Task produces a
BINOP node, executing nothing. -/
def taskBinop (b : BOp) (t u : DTask) : DTask × List Fn := (.binop b t u, [])

/-- Build a Task evaluating to the list of the given tasks' values
(the literal list `[na, nb, nc]` passed to `delayed(sum)`). -/
def listTask : List DTask → DTask
  | [] => .nilT
  | t :: ts => .consT t (listTask ts)

/-- The delayed pipeline of `src/unnamed/part_000` lines 234-251 / 295-299:
`csvs = [delayed(pd.read_csv)(fn) for fn in filenames]`,
`lens = [delayed(len)(csv) for csv in csvs]`,
`total = delayed(sum)(lens)`; the second component is the log of wrapped
callables executed while building. -/
def buildTotal (files : List String) : DTask × List Fn :=
  let csvs := files.map (fun fn => delayedApp .read_csv (.litStr fn))
  let lens := csvs.map (fun c => delayedApp .lenFn c.1)
  let total := delayedApp .sumFn (listTask (lens.map Prod.fst))
  (total.1, (csvs.map Prod.snd).flatten ++ (lens.map Prod.snd).flatten ++ total.2)

/-- The eager pipeline of `src/unnamed/part_000` lines 187-199:
`a = pd.read_csv(f₀); na = len(a); ...; total = sum([na, nb, nc])`,
generalized over the list of file names exactly as its delayed
counterpart is. -/
def eagerTotal (fs : String → List ℚ) (files : List String) : Int :=
  (files.map (fun fn => ((fs fn).length : Int))).sum

/-- The delayed graph built for `total`: a `sum` CALL node over the list of
per-file `len`-of-`read_csv` chains. -/
theorem buildTotal_fst (files : List String) :
    (buildTotal files).1 =
      .call .sumFn (listTask (files.map
        (fun fn => DTask.call .lenFn (DTask.call .read_csv (DTask.litStr fn))))) := by
  simp only [buildTotal, delayedApp, List.map_map]
  rfl

/-- Building the delayed graph logs no wrapped-callable execution. -/
theorem buildTotal_snd (files : List String) : (buildTotal files).2 = [] := by
  simp [buildTotal, delayedApp]

/-- Evaluating the list of per-file `len(read_csv(fn))` chains yields the
list of file lengths and executes `read_csv` then `len` once per file. -/
theorem evalT_lenChains (fs : String → List ℚ) (files : List String) :
    evalT fs (listTask (files.map
        (fun fn => DTask.call .lenFn (DTask.call .read_csv (DTask.litStr fn))))) =
      (Value.vlist (files.map (fun fn => Value.int ((fs fn).length))),
       (files.map (fun _ => [Fn.read_csv, Fn.lenFn])).flatten) := by
  induction files with
  | nil => rfl
  | cons fn rest ih => simp [listTask, evalT, ih, applyFn, consVal]

/-- C2: building a graph from delayed-wrapped callables executes no wrapped
callable (the build log is empty), and user code runs only at `compute()`:
evaluating the built graph executes exactly one `read_csv` and one `len`
per file followed by the final `sum`. -/
theorem build_executes_no_callable (files : List String) (fs : String → List ℚ) :
    (buildTotal files).2 = [] ∧
    (evalT fs (buildTotal files).1).2 =
      (files.map (fun _ => [Fn.read_csv, Fn.lenFn])).flatten ++ [Fn.sumFn] := by
  refine ⟨buildTotal_snd files, ?_⟩
  rw [buildTotal_fst]
  simp [evalT, evalT_lenChains]

/-- The three sample CSV files of part_000, with 10, 9 and 8 rows. -/
def sampleFiles : List String := ["csvfile1.csv", "csvfile2.csv", "csvfile3.csv"]

/-- A file system holding the sample CSV files. -/
def sampleFs : String → List ℚ := fun fn =>
  if fn = "csvfile1.csv" then List.replicate 10 0
  else if fn = "csvfile2.csv" then List.replicate 9 0
  else List.replicate 8 0

/-- C10: for every file system and every list of input files, computing the
delayed read/len/sum pipeline returns exactly the value of the eager
sequential pipeline; in particular both give total length 27 on the three
sample CSV files. -/
theorem delayed_total_eq_eager (fs : String → List ℚ) (files : List String) :
    (evalT fs (buildTotal files).1).1 = Value.int (eagerTotal fs files) ∧
    eagerTotal sampleFs sampleFiles = 27 ∧
    (evalT sampleFs (buildTotal sampleFiles).1).1 = Value.int 27 := by
  refine ⟨?_, by decide, ?_⟩
  · rw [buildTotal_fst]
    simp only [evalT, evalT_lenChains, applyFn, eagerTotal, List.map_map]
    rfl
  · rfl

/-! ## Derived expressions on deferred values (part_000 lines 671-693 and
720-743): `df = delayed(pd.read_csv)(fn)`, `mean_CO3_each = df.CO3.mean()`,
`count = np.size(df['CO3'])`, and `(x + 1)` on a delayed `np.arange`. -/

/-- The deferred dataframe `df = delayed(pd.read_csv)(fn, skiprows=2)` (part_000 line 726), with
its build log. -/
def dfTask (fn : String) : DTask × List Fn := delayedApp .read_csv (.litStr fn)

/-- The chain `mean_CO3_each = df.CO3.mean()` (part_000 line 729): attribute access
followed by a method call on the deferred dataframe, with the build log of
the whole chain. -/
def mean_CO3_each (fn : String) : DTask × List Fn :=
  let df := dfTask fn
  let co3 := taskGetattr df.1 ("CO3")
  let m := taskMethod co3.1 ("mean")
  (m.1, df.2 ++ co3.2 ++ m.2)

/-- The chain `count = np.size(df['CO3'])` (part_000 line 732): indexing on the
deferred dataframe, then a delayed callable applied to the result. -/
def countTask (fn : String) : DTask × List Fn :=
  let df := dfTask fn
  let item := taskGetitem df.1 (.litStr ("CO3"))
  let c := delayedApp .np_size item.1
  (c.1, df.2 ++ item.2 ++ c.2)

/-- The chain `x = delayed(np.arange)(10); y = x + 1` (part_000 lines 678-679):
an arithmetic operator applied to a deferred value. -/
def arangePlus (n : Int) : DTask × List Fn :=
  let x := delayedApp .np_arange (.litInt n)
  let y := taskBinop .add x.1 (.litInt 1)
  (y.1, x.2 ++ y.2)

/-- All Task nodes of a Task tree: the single graph a chain of derived
expressions builds. -/
def subtasks : DTask → List DTask
  | .litInt n => [.litInt n]
  | .litStr s => [.litStr s]
  | .nilT => [.nilT]
  | .consT a b => .consT a b :: (subtasks a ++ subtasks b)
  | .call f a => .call f a :: subtasks a
  | .getattr t a => .getattr t a :: subtasks t
  | .getitem t u => .getitem t u :: (subtasks t ++ subtasks u)
  | .method t m => .method t m :: subtasks t
  | .binop b t u => .binop b t u :: (subtasks t ++ subtasks u)

/-- C4: attribute access, indexing, method calls and arithmetic operators
on a Task produce new Task nodes wrapping the corresponding operation:
the chains build GETATTR / method / GETITEM / CALL / BINOP nodes, their
build logs are empty (no eager evaluation), each chain is one graph
containing the original deferred node, and only `compute()` evaluates them
to the values of the corresponding direct operations. -/
theorem derived_expressions_build_tasks (fn : String) (n : Int) (fs : String → List ℚ) :
    (mean_CO3_each fn).1 =
      .method (.getattr (dfTask fn).1 ("CO3")) ("mean") ∧
    (countTask fn).1 =
      .call .np_size (.getitem (dfTask fn).1 (.litStr ("CO3"))) ∧
    (arangePlus n).1 =
      .binop .add (.call .np_arange (.litInt n)) (.litInt 1) ∧
    (mean_CO3_each fn).2 = [] ∧
    (countTask fn).2 = [] ∧
    (arangePlus n).2 = [] ∧
    (dfTask fn).1 ∈ subtasks (mean_CO3_each fn).1 ∧
    (dfTask fn).1 ∈ subtasks (countTask fn).1 ∧
    (evalT fs (mean_CO3_each fn).1).1 = .rat (npMean (fs fn)) ∧
    (evalT fs (countTask fn).1).1 = .int ((fs fn).length) := by
  refine ⟨rfl, rfl, rfl, rfl, rfl, rfl, ?_, ?_, ?_, ?_⟩
  · simp [mean_CO3_each, dfTask, delayedApp, taskGetattr, taskMethod, subtasks]
  · simp [countTask, dfTask, delayedApp, taskGetitem, subtasks]
  · simp [mean_CO3_each, dfTask, delayedApp, taskGetattr, taskMethod, evalT,
      applyFn, getattrVal, methodVal]
  · simp [countTask, dfTask, delayedApp, taskGetitem, evalT, applyFn, getitemVal]

/-! ## Task identity as a content hash

Modelled from the spec: a Task's identity is a content hash of
(callable reference, argument list, keyword map); the graph builder
converts a tree of Tasks into a flat node list, deduplicating identical
sub-computations.  The hash is a perfect (injective) structural encoding
into `ℕ`. -/

/-- Injective encoding of a list of naturals. -/
def encodeList : List ℕ → ℕ
  | [] => 0
  | x :: xs => Nat.pair x (encodeList xs) + 1

/-- Injective encoding of a string. -/
def encodeStr (s : String) : ℕ := encodeList (s.data.map Char.toNat)

/-- Injective encoding of an integer. -/
def encodeInt (n : Int) : ℕ := Nat.pair (if 0 ≤ n then 0 else 1) n.natAbs

/-- Encoding of a callable reference. -/
def encodeFn : Fn → ℕ
  | .read_csv => 0
  | .lenFn => 1
  | .sumFn => 2
  | .np_size => 3
  | .np_arange => 4

/-- Encoding of a binary operator. -/
def encodeBOp : BOp → ℕ
  | .add => 0

/-- Modelled from the spec: the content hash that is a Task's identity,
computed structurally from the callable reference and the arguments. -/
def taskId : DTask → ℕ
  | .litInt n => Nat.pair 0 (encodeInt n)
  | .litStr s => Nat.pair 1 (encodeStr s)
  | .nilT => Nat.pair 2 0
  | .consT a b => Nat.pair 3 (Nat.pair (taskId a) (taskId b))
  | .call f a => Nat.pair 4 (Nat.pair (encodeFn f) (taskId a))
  | .getattr t a => Nat.pair 5 (Nat.pair (taskId t) (encodeStr a))
  | .getitem t u => Nat.pair 6 (Nat.pair (taskId t) (taskId u))
  | .method t m => Nat.pair 7 (Nat.pair (taskId t) (encodeStr m))
  | .binop b t u => Nat.pair 8 (Nat.pair (encodeBOp b) (Nat.pair (taskId t) (taskId u)))

theorem encodeList_injective : Function.Injective encodeList := by
  intro xs
  induction xs with
  | nil =>
    intro ys h
    cases ys with
    | nil => rfl
    | cons y ys => simp [encodeList] at h
  | cons x xs ih =>
    intro ys h
    cases ys with
    | nil => simp [encodeList] at h
    | cons y ys =>
      simp only [encodeList, Nat.add_right_cancel_iff, Nat.pair_eq_pair] at h
      rw [h.1, ih h.2]

theorem encodeStr_injective : Function.Injective encodeStr := by
  intro s t h
  have hchar : Function.Injective Char.toNat := by
    intro c d hc
    exact Char.ext (UInt32.ext_iff.mpr hc)
  have hdata : s.data = t.data :=
    List.map_injective_iff.mpr hchar (encodeList_injective h)
  cases s; cases t; simp only at hdata; rw [hdata]

theorem encodeInt_injective : Function.Injective encodeInt := by
  intro m n h
  simp only [encodeInt, Nat.pair_eq_pair] at h
  rcases h with ⟨h₁, h₂⟩
  by_cases hm : 0 ≤ m <;> by_cases hn : 0 ≤ n <;> simp [hm, hn] at h₁ <;> omega

theorem encodeFn_injective : Function.Injective encodeFn := by
  intro f g h
  cases f <;> cases g <;> simp [encodeFn] at h <;> rfl

/-- The content hash is injective: two Tasks have the same identity
exactly when they are the same content. -/
theorem taskId_injective : Function.Injective taskId := by
  intro t
  induction t with
  | litInt n =>
    intro u h
    cases u <;> simp only [taskId, Nat.pair_eq_pair] at h <;> try omega
    rw [encodeInt_injective h.2]
  | litStr s =>
    intro u h
    cases u <;> simp only [taskId, Nat.pair_eq_pair] at h <;> try omega
    rw [encodeStr_injective h.2]
  | nilT =>
    intro u h
    cases u <;> simp only [taskId, Nat.pair_eq_pair] at h <;> try omega
    rfl
  | consT a b iha ihb =>
    intro u h
    cases u <;> simp only [taskId, Nat.pair_eq_pair] at h <;> try omega
    rw [iha h.2.1, ihb h.2.2]
  | call f a iha =>
    intro u h
    cases u <;> simp only [taskId, Nat.pair_eq_pair] at h <;> try omega
    rw [encodeFn_injective h.2.1, iha h.2.2]
  | getattr t a iht =>
    intro u h
    cases u <;> simp only [taskId, Nat.pair_eq_pair] at h <;> try omega
    rw [iht h.2.1, encodeStr_injective h.2.2]
  | getitem t v iht ihv =>
    intro u h
    cases u <;> simp only [taskId, Nat.pair_eq_pair] at h <;> try omega
    rw [iht h.2.1, ihv h.2.2]
  | method t m iht =>
    intro u h
    cases u <;> simp only [taskId, Nat.pair_eq_pair] at h <;> try omega
    rw [iht h.2.1, encodeStr_injective h.2.2]
  | binop b t v iht ihv =>
    intro u h
    cases u <;> simp only [taskId, Nat.pair_eq_pair] at h <;> try omega
    cases b
    rename_i b' _ _
    cases b'
    rw [iht h.2.2.1, ihv h.2.2.2]

/-- Modelled from the spec: the graph builder flattens a Task tree into the
list of its distinct sub-computation nodes, deduplicating structurally
identical ones. -/
def flatGraph (t : DTask) : List DTask := (subtasks t).dedup

/-- A sub-computation repeated twice in the evaluated list: the same
`read_csv` call appears as both list elements. -/
def dupExample : DTask :=
  .consT (.call .read_csv (.litStr ("f.csv")))
    (.consT (.call .read_csv (.litStr ("f.csv"))) .nilT)

/-- C5: Task identity is an injective content hash — two Task
constructions get the same identity exactly when callable, arguments and
structure agree — and the graph builder deduplicates: the flat graph has
no duplicate nodes, keeps exactly the sub-computations of the tree, and
on a tree containing the same `read_csv` call twice that call becomes one
single node. -/
theorem taskId_content_hash :
    (∀ t u : DTask, taskId t = taskId u ↔ t = u) ∧
    (∀ t : DTask, (flatGraph t).Nodup ∧ ∀ s : DTask, s ∈ flatGraph t ↔ s ∈ subtasks t) ∧
    (subtasks dupExample).count (.call .read_csv (.litStr ("f.csv"))) = 2 ∧
    (flatGraph dupExample).count (.call .read_csv (.litStr ("f.csv"))) = 1 := by
  refine ⟨fun t u => ⟨fun h => taskId_injective h, fun h => by rw [h]⟩,
    fun t => ⟨List.nodup_dedup _, fun s => List.mem_dedup⟩, by decide, by decide⟩

/-! ## The flat graph and its schedulers

Modelled from the spec: the graph builder produces a flat mapping from
task id to (callable, resolved-argument-ids); a scheduler executes tasks
respecting dependency order; workers pull READY tasks, execute the
callable with resolved dependency values substituted, and record the
result.  A backend is the per-`compute()`-call choice of the execution
order; every backend's order respects dependencies. -/

/-- A flat-graph node: the ids of its dependencies, and the callable that
combines their values. -/
structure Node where
  deps : List ℕ
  op : List ℚ → ℚ

/-- The flat task graph: a mapping from task id to node definition. -/
abbrev Defs := List (ℕ × Node)

/-- The dependency ids of a task (empty for an absent id). -/
def depsList (g : Defs) (i : ℕ) : List ℕ := ((g.lookup i).map Node.deps).getD []

/-- Resolve the values of a list of dependency ids; `none` when any of
them is still unresolved. -/
def resolveAll (res : ℕ → Option ℚ) : List ℕ → Option (List ℚ)
  | [] => some []
  | j :: js =>
    match res j, resolveAll res js with
    | some v, some vs => some (v :: vs)
    | _, _ => none

/-- One scheduler step: execute task `i` with the resolved values of its
dependencies substituted, recording its value; a task whose dependencies
are unresolved or whose id is absent is left unrecorded. -/
def execStep (g : Defs) (res : ℕ → Option ℚ) (i : ℕ) : ℕ → Option ℚ :=
  match g.lookup i with
  | none => res
  | some node =>
    match resolveAll res node.deps with
    | none => res
    | some vals => fun j => if j = i then some (node.op vals) else res j

/-- Execute the tasks of `l` in order, starting from results `res`. -/
def execFrom (g : Defs) (res : ℕ → Option ℚ) (l : List ℕ) : ℕ → Option ℚ :=
  l.foldl (execStep g) res

/-- Execute a whole schedule from an empty result map: the
ExecutionResult a `compute()` call builds. -/
def execOrder (g : Defs) (o : List ℕ) : ℕ → Option ℚ :=
  execFrom g (fun _ => none) o

/-- A valid schedule: each task of the graph exactly once, and every
task's dependencies strictly before it.  Any order in which workers pull
READY tasks is of this shape. -/
structure ValidSchedule (g : Defs) (o : List ℕ) : Prop where
  nodup : o.Nodup
  complete : ∀ i, (g.lookup i).isSome = true → i ∈ o
  covers : ∀ i ∈ o, (g.lookup i).isSome = true
  depsBefore : ∀ k : Fin o.length, ∀ j ∈ depsList g (o.get k), j ∈ o.take k.val

/-- Modelled from the spec: a backend (synchronous, thread pool, process
pool) chooses, per `compute()` call, the order in which the scheduler
executes tasks. -/
structure Backend where
  order : Defs → List ℕ

/-- Running `compute()` under a backend: run the backend's schedule and read off
the requested output id. -/
def computeWith (b : Backend) (g : Defs) (i : ℕ) : Option ℚ :=
  execOrder g (b.order g) i

theorem execStep_ne (g : Defs) (res : ℕ → Option ℚ) (a j : ℕ) (h : j ≠ a) :
    execStep g res a j = res j := by
  cases hg : g.lookup a with
  | none => simp [execStep, hg]
  | some node =>
    cases hm : resolveAll res node.deps with
    | none => simp [execStep, hg, hm]
    | some vals => simp [execStep, hg, hm, h]

theorem execFrom_cons (g : Defs) (res : ℕ → Option ℚ) (a : ℕ) (l : List ℕ) :
    execFrom g res (a :: l) = execFrom g (execStep g res a) l := rfl

theorem execFrom_append (g : Defs) (res : ℕ → Option ℚ) (l₁ l₂ : List ℕ) :
    execFrom g res (l₁ ++ l₂) = execFrom g (execFrom g res l₁) l₂ :=
  List.foldl_append ..

/-- Executing a list of tasks leaves any id outside the list untouched. -/
theorem execFrom_not_mem (g : Defs) :
    ∀ (l : List ℕ) (res : ℕ → Option ℚ) (j : ℕ), j ∉ l → execFrom g res l j = res j := by
  intro l
  induction l with
  | nil => intro res j _; rfl
  | cons a l ih =>
    intro res j hj
    simp only [List.mem_cons, not_or] at hj
    rw [execFrom_cons, ih _ _ hj.2, execStep_ne g res a j hj.1]

theorem resolveAll_congr {f h : ℕ → Option ℚ} :
    ∀ l : List ℕ, (∀ j ∈ l, f j = h j) → resolveAll f l = resolveAll h l := by
  intro l
  induction l with
  | nil => intro _; rfl
  | cons a l ih =>
    intro hfh
    simp only [resolveAll]
    rw [hfh a (by simp), ih (fun j hj => hfh j (List.mem_cons_of_mem a hj))]

theorem resolveAll_isSome {f : ℕ → Option ℚ} :
    ∀ l : List ℕ, (∀ j ∈ l, (f j).isSome = true) → ∃ vals, resolveAll f l = some vals := by
  intro l
  induction l with
  | nil => intro _; exact ⟨[], rfl⟩
  | cons a l ih =>
    intro hl
    obtain ⟨v, hv⟩ := Option.isSome_iff_exists.mp (hl a (by simp))
    obtain ⟨vals, hvals⟩ := ih (fun j hj => hl j (List.mem_cons_of_mem a hj))
    exact ⟨v :: vals, by simp [resolveAll, hv, hvals]⟩

/-- An element of `l.take k` has its first occurrence before position `k`. -/
theorem indexOf_lt_of_mem_take {l : List ℕ} :
    ∀ (k : ℕ) (j : ℕ), j ∈ l.take k → l.indexOf j < k := by
  induction l with
  | nil => intro k j hj; simp at hj
  | cons a l ih =>
    intro k j hj
    cases k with
    | zero => simp at hj
    | succ k =>
      simp only [List.take_succ_cons, List.mem_cons] at hj
      rcases hj with hj | hj
      · subst hj; simp [List.indexOf_cons_self]
      · by_cases hja : j = a
        · subst hja; simp [List.indexOf_cons_self]
        · have := ih k j hj
          have hne : (a == j) = false := beq_eq_false_iff_ne.mpr (Ne.symm hja)
          simp only [List.indexOf_cons, hne, cond_false]
          omega

theorem execStep_self (g : Defs) (res : ℕ → Option ℚ) (i : ℕ) (node : Node)
    (hg : g.lookup i = some node) (vals : List ℚ)
    (hv : resolveAll res node.deps = some vals) :
    execStep g res i i = some (node.op vals) := by
  simp [execStep, hg, hv]

/-- In a duplicate-free schedule, the task at position `m` does not occur
in the prefix before `m`. -/
theorem get_not_mem_take {o : List ℕ} (ho : o.Nodup) (m : ℕ) (hm : m < o.length) :
    o.get ⟨m, hm⟩ ∉ o.take m := by
  intro hmem
  have hsplit : o.take m ++ o.drop m = o := List.take_append_drop m o
  have hnodup : (o.take m ++ o.drop m).Nodup := by rw [hsplit]; exact ho
  have hdisj := (List.nodup_append.mp hnodup).2.2
  have hdropmem : o.get ⟨m, hm⟩ ∈ o.drop m := by
    rw [← List.getElem_cons_drop o m hm]
    exact List.mem_cons_self _ _
  exact hdisj hmem hdropmem

/-- Every scheduled position holds a task present in the graph. -/
theorem lookup_get_isSome (g : Defs) (o : List ℕ) (vs : ValidSchedule g o)
    (m : ℕ) (hm : m < o.length) : (g.lookup (o.get ⟨m, hm⟩)).isSome = true :=
  vs.covers _ (List.get_mem o m hm)

/-- After executing a valid schedule's prefix, every task of the prefix
is recorded with some value. -/
theorem exec_assigned (g : Defs) (o : List ℕ) (vs : ValidSchedule g o) :
    ∀ m, ∀ j ∈ o.take m, ((execFrom g (fun _ => none) (o.take m)) j).isSome = true := by
  intro m
  induction m with
  | zero => intro j hj; simp at hj
  | succ m ih =>
    intro j hj
    by_cases hm : m < o.length
    · have htake : o.take (m + 1) = o.take m ++ [o.get ⟨m, hm⟩] := by
        rw [List.take_succ, List.getElem?_eq_getElem hm]
        rfl
      have hstepped :
          execFrom g (fun _ => none) (o.take (m + 1)) =
            execStep g (execFrom g (fun _ => none) (o.take m)) (o.get ⟨m, hm⟩) := by
        rw [htake, execFrom_append]
        rfl
      rw [htake] at hj
      rw [hstepped]
      have hnode := lookup_get_isSome g o vs m hm
      obtain ⟨node, hnodeq⟩ := Option.isSome_iff_exists.mp hnode
      have hdeps : ∀ j ∈ node.deps, j ∈ o.take m := by
        intro j hjd
        have := vs.depsBefore ⟨m, hm⟩
        simp only [depsList, hnodeq, Option.map_some, Option.getD_some] at this
        exact this j hjd
      obtain ⟨vals, hvals⟩ := resolveAll_isSome node.deps
        (fun j hjd => ih j (hdeps j hjd))
      rcases List.mem_append.mp hj with hj | hj
      · have hne : j ≠ o.get ⟨m, hm⟩ := by
          intro heq
          exact get_not_mem_take vs.nodup m hm (heq ▸ hj)
        rw [execStep_ne _ _ _ _ hne]
        exact ih j hj
      · have hj' : j = o.get ⟨m, hm⟩ := by simpa using hj
        subst hj'
        rw [execStep_self g _ _ node hnodeq vals hvals]
        rfl
    · have h1 : o.take (m + 1) = o := List.take_of_length_le (by omega)
      have h2 : o.take m = o := List.take_of_length_le (by omega)
      have := ih j (by rw [h2, ← h1]; exact hj)
      rw [h2] at this
      rw [h1]
      exact this

/-- On a valid schedule, every task of the graph ends up recorded with
its callable applied to the final values of its dependencies. -/
theorem execOrder_spec (g : Defs) (o : List ℕ) (vs : ValidSchedule g o) :
    ∀ i ∈ o, ∃ node vals,
      g.lookup i = some node ∧
      resolveAll (execOrder g o) node.deps = some vals ∧
      execOrder g o i = some (node.op vals) := by
  intro i hi
  obtain ⟨⟨k, hk⟩, hik⟩ := List.mem_iff_get.mp hi
  obtain ⟨node, hnodeq⟩ :=
    Option.isSome_iff_exists.mp (hik ▸ lookup_get_isSome g o vs k hk)
  have hdeps : ∀ j ∈ node.deps, j ∈ o.take k := by
    intro j hjd
    have := vs.depsBefore ⟨k, hk⟩
    rw [hik] at this
    simp only [depsList, hnodeq, Option.map_some, Option.getD_some] at this
    exact this j hjd
  have hdisj : ∀ j ∈ o.take k, j ∉ o.drop k := by
    have hsplit : o.take k ++ o.drop k = o := List.take_append_drop k o
    have hnodup : (o.take k ++ o.drop k).Nodup := by rw [hsplit]; exact vs.nodup
    exact fun j hj hj2 => (List.nodup_append.mp hnodup).2.2 hj hj2
  have hdropk : o.drop k = i :: o.drop (k + 1) := by
    rw [← hik, ← List.getElem_cons_drop o k hk]
    rfl
  have hexec : execOrder g o =
      execFrom g (execStep g (execFrom g (fun _ => none) (o.take k)) i)
        (o.drop (k + 1)) := by
    have hfull : execOrder g o = execFrom g (fun _ => none) (o.take k ++ o.drop k) := by
      rw [List.take_append_drop]
      rfl
    rw [hfull, execFrom_append, hdropk, execFrom_cons]
  have hids : i ∉ o.drop (k + 1) := by
    have hdnodup : (o.drop k).Nodup := vs.nodup.sublist (List.drop_sublist k o)
    rw [hdropk] at hdnodup
    exact (List.nodup_cons.mp hdnodup).1
  have hassigned := exec_assigned g o vs k
  obtain ⟨vals, hvals⟩ := resolveAll_isSome node.deps
    (fun j hjd => hassigned j (hdeps j hjd))
  have huntouched : ∀ j ∈ node.deps,
      execOrder g o j = execFrom g (fun _ => none) (o.take k) j := by
    intro j hjd
    have hjtake := hdeps j hjd
    have hjne : j ≠ i := by
      intro heq
      exact hdisj j hjtake (heq ▸ hdropk ▸ List.mem_cons_self i (o.drop (k + 1)))
    rw [hexec, execFrom_not_mem g _ _ j
      (fun hmem => hdisj j hjtake (hdropk ▸ List.mem_cons_of_mem i hmem)),
      execStep_ne _ _ _ _ hjne]
  refine ⟨node, vals, hnodeq, ?_, ?_⟩
  · rw [resolveAll_congr node.deps huntouched]
    exact hvals
  · rw [hexec, execFrom_not_mem g _ _ i hids,
      execStep_self g _ i node hnodeq vals hvals]

/-- Any two valid schedules of the same graph produce identical
ExecutionResults. -/
theorem execOrder_schedule_independent (g : Defs) (o₁ o₂ : List ℕ)
    (h₁ : ValidSchedule g o₁) (h₂ : ValidSchedule g o₂) :
    ∀ i, execOrder g o₁ i = execOrder g o₂ i := by
  have hmem : ∀ i, i ∈ o₁ ↔ i ∈ o₂ := fun i =>
    ⟨fun h => h₂.complete i (h₁.covers i h), fun h => h₁.complete i (h₂.covers i h)⟩
  have main : ∀ n, ∀ i, i ∈ o₁ → o₁.indexOf i = n →
      execOrder g o₁ i = execOrder g o₂ i := by
    intro n
    induction n using Nat.strong_induction_on with
    | _ n ih =>
      intro i hi₁ hidx
      obtain ⟨node, vals, hnode, hres₁, hval₁⟩ := execOrder_spec g o₁ h₁ i hi₁
      obtain ⟨node₂, vals₂, hnode₂, hres₂, hval₂⟩ :=
        execOrder_spec g o₂ h₂ i ((hmem i).mp hi₁)
      rw [hnode] at hnode₂
      injection hnode₂ with hnn
      subst hnn
      have hk : o₁.indexOf i < o₁.length := List.indexOf_lt_length.mpr hi₁
      have hgeti : o₁.get ⟨o₁.indexOf i, hk⟩ = i := List.indexOf_get hk
      have hdeps : ∀ j ∈ node.deps, execOrder g o₁ j = execOrder g o₂ j := by
        intro j hjd
        have hjtake : j ∈ o₁.take (o₁.indexOf i) := by
          have := h₁.depsBefore ⟨o₁.indexOf i, hk⟩
          rw [hgeti] at this
          simp only [depsList, hnode, Option.map_some, Option.getD_some] at this
          exact this j hjd
        have hjlt : o₁.indexOf j < n :=
          hidx ▸ indexOf_lt_of_mem_take (o₁.indexOf i) j hjtake
        exact ih (o₁.indexOf j) hjlt j (List.take_subset _ _ hjtake) rfl
      have hsame : resolveAll (execOrder g o₂) node.deps = some vals := by
        rw [← resolveAll_congr node.deps hdeps]
        exact hres₁
      rw [hsame] at hres₂
      injection hres₂ with hv
      rw [hval₁, hval₂, hv]
  intro i
  by_cases hi : i ∈ o₁
  · exact main (o₁.indexOf i) i hi rfl
  · have hi₂ : i ∉ o₂ := fun h => hi ((hmem i).mpr h)
    unfold execOrder
    rw [execFrom_not_mem g o₁ _ i hi, execFrom_not_mem g o₂ _ i hi₂]

/-- C3: for every acyclic task graph, `compute()` returns the same value
under any two backends — each backend chooses its schedule per
`compute()` call, and any backend's schedule executes each task once with
its dependencies first — so synchronous, thread-pool and process-pool
execution all return identical values at every requested output id. -/
theorem compute_backend_independent (b₁ b₂ : Backend) (g : Defs)
    (h₁ : ValidSchedule g (b₁.order g)) (h₂ : ValidSchedule g (b₂.order g)) :
    ∀ i, computeWith b₁ g i = computeWith b₂ g i :=
  fun i => execOrder_schedule_independent g (b₁.order g) (b₂.order g) h₁ h₂ i

/-- A small sample graph: two independent leaf tasks and a sum task
depending on both. -/
def gW : Defs :=
  [(0, ⟨[], fun _ => 1⟩), (1, ⟨[], fun _ => 2⟩), (2, ⟨[0, 1], fun vs => vs.headD 0⟩)]

/-- The synchronous backend's schedule on the sample graph: plain
topological order. -/
def syncBackend : Backend := ⟨fun _ => [0, 1, 2]⟩

/-- A pool backend's schedule on the sample graph: workers happened to
pull task 1 before task 0. -/
def poolBackend : Backend := ⟨fun _ => [1, 0, 2]⟩

theorem gW_valid_sync : ValidSchedule gW (syncBackend.order gW) := by
  refine ⟨by decide, ?_, by decide, by decide⟩
  intro i h
  match i with
  | 0 => decide
  | 1 => decide
  | 2 => decide
  | n + 3 => simp [gW, List.lookup] at h

theorem gW_valid_pool : ValidSchedule gW (poolBackend.order gW) := by
  refine ⟨by decide, ?_, by decide, by decide⟩
  intro i h
  match i with
  | 0 => decide
  | 1 => decide
  | 2 => decide
  | n + 3 => simp [gW, List.lookup] at h

/-- C3 witness: on the sample graph the synchronous and pool backends,
selected per `compute()` call, return the same value at the output. -/
theorem compute_backend_independent_witness :
    computeWith syncBackend gW 2 = computeWith poolBackend gW 2 ∧
    computeWith syncBackend gW 2 = some 1 :=
  ⟨compute_backend_independent syncBackend poolBackend gW
    gW_valid_sync gW_valid_pool 2, rfl⟩

/-! ## Build-time validation: dependency cycles are a GraphError

Modelled from the spec: constructing a Task whose arguments create a cycle
fails with a GraphError at build time, not at execution time; the builder
also checks that every referenced task id exists in the mapping. -/

/-- Build-time graph errors: a dependency cycle, or a reference to a
missing task id. -/
inductive GraphError where
  | cycle
  | missing
deriving DecidableEq, Repr

/-- The task ids defined by a flat mapping. -/
def keysOf (g : Defs) : List ℕ := g.map Prod.fst

/-- The build-time topological check: repeatedly pick a remaining task all
of whose dependencies are already emitted; a stuck pass means the
remaining tasks form a dependency cycle. -/
def topoAux (g : Defs) : ℕ → List ℕ → List ℕ → Except GraphError (List ℕ)
  | _, done, [] => .ok done.reverse
  | 0, _, _ :: _ => .error .cycle
  | fuel + 1, done, remaining =>
    match remaining.find? (fun i => (depsList g i).all (fun j => done.contains j)) with
    | none => .error .cycle
    | some i => topoAux g fuel (i :: done) (remaining.erase i)

/-- Modelled from the spec: the graph builder validates the flat mapping
at build time — every referenced id must exist and the dependency
relation must be acyclic — returning a topological order on success and a
GraphError otherwise, before any task executes. -/
def buildGraph (g : Defs) : Except GraphError (List ℕ) :=
  if (keysOf g).all (fun i => (depsList g i).all (fun j => (g.lookup j).isSome)) then
    topoAux g (keysOf g).length [] (keysOf g)
  else
    .error .missing

/-- Running `compute()` with build-time validation: build the graph first, then
execute; a build error surfaces before any execution starts. -/
def computeChecked (g : Defs) (i : ℕ) : Except GraphError (Option ℚ) :=
  match buildGraph g with
  | .error e => .error e
  | .ok o => .ok (execOrder g o i)

/-- One dependency edge: task `i`'s arguments reference task `j`. -/
def DependsOn (g : Defs) (i j : ℕ) : Prop := j ∈ depsList g i

/-- A dependency-respecting order: every listed task's dependencies appear
strictly before it. -/
def GoodOrder (g : Defs) (o : List ℕ) : Prop :=
  ∀ (k : ℕ) (hk : k < o.length), ∀ j ∈ depsList g (o.get ⟨k, hk⟩), j ∈ o.take k

theorem goodOrder_append (g : Defs) (o : List ℕ) (x : ℕ)
    (ho : GoodOrder g o) (hx : ∀ j ∈ depsList g x, j ∈ o) :
    GoodOrder g (o ++ [x]) := by
  intro k hk j hj
  by_cases hko : k < o.length
  · have hget : (o ++ [x]).get ⟨k, hk⟩ = o.get ⟨k, hko⟩ := by
      simp [List.get_eq_getElem, List.getElem_append_left hko]
    rw [hget] at hj
    have := ho k hko j hj
    rw [List.take_append_of_le_length (Nat.le_of_lt hko)]
    exact this
  · have hkeq : k = o.length := by
      have := hk
      simp only [List.length_append, List.length_cons, List.length_nil] at this
      omega
    subst hkeq
    have hget : (o ++ [x]).get ⟨o.length, hk⟩ = x := by
      simp [List.get_eq_getElem, List.getElem_append_right (Nat.le_refl o.length)]
    rw [hget] at hj
    rw [List.take_append_of_le_length (Nat.le_refl o.length), List.take_length]
    exact hx j hj

theorem topoAux_ok (g : Defs) :
    ∀ (fuel : ℕ) (rem done o : List ℕ),
      GoodOrder g done.reverse →
      topoAux g fuel done rem = .ok o →
      GoodOrder g o ∧ (∀ i ∈ rem, i ∈ o) ∧ (∀ i ∈ done, i ∈ o) := by
  intro fuel
  induction fuel with
  | zero =>
    intro rem done o hgood htopo
    cases rem with
    | nil =>
      simp only [topoAux, Except.ok.injEq] at htopo
      subst htopo
      exact ⟨hgood, by simp, fun i hi => by simp [hi]⟩
    | cons a rem => simp [topoAux] at htopo
  | succ fuel ih =>
    intro rem done o hgood htopo
    cases rem with
    | nil =>
      simp only [topoAux, Except.ok.injEq] at htopo
      subst htopo
      exact ⟨hgood, by simp, fun i hi => by simp [hi]⟩
    | cons a rem' =>
      have hunfold : topoAux g (fuel + 1) done (a :: rem') =
          match (a :: rem').find?
              (fun i => (depsList g i).all (fun j => done.contains j)) with
          | none => .error .cycle
          | some x => topoAux g fuel (x :: done) ((a :: rem').erase x) := rfl
      rw [hunfold] at htopo
      cases hfind : (a :: rem').find?
          (fun i => (depsList g i).all (fun j => done.contains j)) with
      | none => rw [hfind] at htopo; simp at htopo
      | some x =>
        rw [hfind] at htopo
        have hxdeps : ∀ j ∈ depsList g x, j ∈ done := by
          intro j hj
          have hall := List.find?_some hfind
          have := List.all_eq_true.mp hall j hj
          simpa using this
        have hgood' : GoodOrder g (x :: done).reverse := by
          rw [List.reverse_cons]
          exact goodOrder_append g done.reverse x hgood
            (fun j hj => List.mem_reverse.mpr (hxdeps j hj))
        obtain ⟨h1, h2, h3⟩ := ih ((a :: rem').erase x) (x :: done) o hgood' htopo
        refine ⟨h1, ?_, fun i hi => h3 i (List.mem_cons_of_mem x hi)⟩
        intro i hi
        by_cases hix : i = x
        · exact hix ▸ h3 x (List.mem_cons_self x done)
        · exact h2 i ((List.mem_erase_of_ne hix).mpr hi)

theorem lookup_some_mem :
    ∀ (g : Defs) (a : ℕ) (node : Node), g.lookup a = some node → a ∈ keysOf g := by
  intro g
  induction g with
  | nil => intro a node h; simp [List.lookup] at h
  | cons p g ih =>
    intro a node h
    rcases p with ⟨k, v⟩
    simp only [List.lookup] at h
    by_cases hak : a = k
    · subst hak; simp [keysOf]
    · have hne : (a == k) = false := beq_eq_false_iff_ne.mpr hak
      rw [hne] at h
      simp only [keysOf, List.map_cons, List.mem_cons]
      exact Or.inr (ih a node h)

/-- C6: a task definition whose arguments create a dependency cycle
(self-referential or mutually-referential, i.e. some id transitively
depends on itself) makes construction fail at graph-build time with a
GraphError, so `compute()` surfaces that error before any task
executes — never only at execution time. -/
theorem cyclic_graph_fails_at_build (g : Defs) (i₀ : ℕ)
    (hcyc : Relation.TransGen (DependsOn g) i₀ i₀) :
    ∃ e : GraphError, buildGraph g = .error e ∧
      ∀ i, computeChecked g i = .error e := by
  cases hb : buildGraph g with
  | error e => exact ⟨e, rfl, fun i => by simp [computeChecked, hb]⟩
  | ok o =>
    exfalso
    unfold buildGraph at hb
    by_cases hall : ((keysOf g).all
        (fun i => (depsList g i).all (fun j => (g.lookup j).isSome))) = true
    · rw [if_pos hall] at hb
      have hinit : GoodOrder g ([] : List ℕ).reverse := by
        intro k hk
        simp at hk
      obtain ⟨hgoodo, hkeys, _⟩ :=
        topoAux_ok g (keysOf g).length (keysOf g) [] o hinit hb
      have hedge : ∀ a b, DependsOn g a b → a ∈ o →
          b ∈ o ∧ o.indexOf b < o.indexOf a := by
        intro a b hab ha
        have hk : o.indexOf a < o.length := List.indexOf_lt_length.mpr ha
        have hget : o.get ⟨o.indexOf a, hk⟩ = a := List.indexOf_get hk
        have hmem := hgoodo (o.indexOf a) hk b (by rw [hget]; exact hab)
        exact ⟨List.take_subset _ _ hmem, indexOf_lt_of_mem_take _ _ hmem⟩
      have hstart : ∀ a b, DependsOn g a b → a ∈ o := by
        intro a b hab
        unfold DependsOn depsList at hab
        cases hg : g.lookup a with
        | none => rw [hg] at hab; simp at hab
        | some node => exact hkeys a (lookup_some_mem g a node hg)
      have hdec : ∀ a b, Relation.TransGen (DependsOn g) a b →
          b ∈ o ∧ o.indexOf b < o.indexOf a := by
        intro a b h
        induction h with
        | single hab => exact hedge _ _ hab (hstart _ _ hab)
        | tail h1 hbc ih =>
          obtain ⟨hbo, hlt⟩ := ih
          obtain ⟨hco, hlt2⟩ := hedge _ _ hbc hbo
          exact ⟨hco, hlt2.trans hlt⟩
      exact absurd (hdec i₀ i₀ hcyc).2 (lt_irrefl _)
    · rw [if_neg hall] at hb
      cases hb

/-- A self-referential task definition: task 0's arguments reference
task 0 itself. -/
def gCyc : Defs := [(0, ⟨[0], fun vs => vs.headD 0⟩)]

/-- C6 witness: the self-referential definition fails at build time with
a GraphError, surfaced by `compute()` before execution. -/
theorem cyclic_graph_fails_at_build_witness :
    ∃ e : GraphError, buildGraph gCyc = .error e ∧
      ∀ i, computeChecked gCyc i = .error e :=
  cyclic_graph_fails_at_build gCyc 0
    (Relation.TransGen.single (show (0 : ℕ) ∈ depsList gCyc 0 by decide))

/-! ## The scheduler state machine

Modelled from the spec: states per task PENDING → READY (all dependencies
resolved) → RUNNING → DONE, or RUNNING → FAILED; a task moves
PENDING→READY exactly when every task id it depends on is DONE; workers
execute the callable with resolved dependency values and record DONE with
the return value; the ExecutionResult is populated incrementally. -/

/-- A task's lifecycle state. -/
inductive TState where
  | pending
  | ready
  | running
  | done
  | failed
deriving DecidableEq, Repr

/-- A scheduler state: each task's lifecycle state together with the
incrementally populated ExecutionResult. -/
structure SchedState where
  st : ℕ → TState
  res : ℕ → Option ℚ

/-- The state a `compute()` call starts from: every task PENDING, empty
ExecutionResult. -/
def initState : SchedState := ⟨fun _ => .pending, fun _ => none⟩

/-- Update one task's lifecycle state. -/
def setSt (s : SchedState) (i : ℕ) (t : TState) : SchedState :=
  ⟨fun j => if j = i then t else s.st j, s.res⟩

/-- Record a finished task: mark it DONE and store its value in the
ExecutionResult. -/
def recordRes (s : SchedState) (i : ℕ) (v : ℚ) : SchedState :=
  ⟨fun j => if j = i then .done else s.st j,
   fun j => if j = i then some v else s.res j⟩

/-- The scheduler's transition relation. -/
inductive Step (g : Defs) : SchedState → SchedState → Prop
  | toReady (s : SchedState) (i : ℕ) :
      s.st i = .pending →
      (∀ j ∈ depsList g i, s.st j = .done) →
      Step g s (setSt s i .ready)
  | start (s : SchedState) (i : ℕ) :
      s.st i = .ready →
      Step g s (setSt s i .running)
  | finish (s : SchedState) (i : ℕ) (node : Node) (vals : List ℚ) :
      s.st i = .running →
      g.lookup i = some node →
      resolveAll s.res node.deps = some vals →
      Step g s (recordRes s i (node.op vals))
  | fail (s : SchedState) (i : ℕ) :
      s.st i = .running →
      Step g s (setSt s i .failed)

/-- The states an execution can pass through. -/
def Reachable (g : Defs) (s : SchedState) : Prop :=
  Relation.ReflTransGen (Step g) initState s

/-- The inductive invariant: any task that has left PENDING has all its
dependencies DONE, and any task with a recorded value is DONE. -/
def DepsInv (g : Defs) (s : SchedState) : Prop :=
  ∀ i, (s.st i ≠ .pending → ∀ j ∈ depsList g i, s.st j = .done) ∧
    ((s.res i).isSome = true → s.st i = .done)

/-- The C7 property: the ExecutionResult never holds a value for a task
with an incomplete dependency; a RUNNING or DONE task has all its
dependencies DONE (so a dependency's DONE strictly precedes its
dependent's RUNNING); and PENDING→READY is enabled exactly when every
dependency is DONE. -/
def SchedulerInvariant (g : Defs) (s : SchedState) : Prop :=
  (∀ i, (s.res i).isSome = true → ∀ j ∈ depsList g i, s.st j = .done) ∧
  (∀ i, (s.st i = .running ∨ s.st i = .done) → ∀ j ∈ depsList g i, s.st j = .done) ∧
  (∀ i, (∃ s', Step g s s' ∧ s'.st i = .ready ∧ s.st i = .pending) ↔
    (s.st i = .pending ∧ ∀ j ∈ depsList g i, s.st j = .done))

/-- DONE is a terminal state: every transition preserves it. -/
theorem step_done_persists (g : Defs) {s s' : SchedState} (h : Step g s s') :
    ∀ j, s.st j = .done → s'.st j = .done := by
  cases h with
  | toReady i hp _ =>
    intro j hj
    by_cases hji : j = i
    · subst hji; rw [hp] at hj; exact absurd hj (by decide)
    · simp [setSt, hji, hj]
  | start i hr =>
    intro j hj
    by_cases hji : j = i
    · subst hji; rw [hr] at hj; exact absurd hj (by decide)
    · simp [setSt, hji, hj]
  | finish i node vals hr _ _ =>
    intro j hj
    by_cases hji : j = i
    · subst hji; simp [recordRes]
    · simp [recordRes, hji, hj]
  | fail i hr =>
    intro j hj
    by_cases hji : j = i
    · subst hji; rw [hr] at hj; exact absurd hj (by decide)
    · simp [setSt, hji, hj]

theorem initState_inv (g : Defs) : DepsInv g initState := by
  intro i
  constructor
  · intro h; exact absurd rfl h
  · intro h; simp [initState] at h

theorem step_preserves_inv (g : Defs) {s s' : SchedState}
    (hstep : Step g s s') (hinv : DepsInv g s) : DepsInv g s' := by
  have hpers := step_done_persists g hstep
  cases hstep with
  | toReady i hp hdeps =>
    intro a
    constructor
    · intro ha j hj
      by_cases hai : a = i
      · subst hai
        exact hpers j (hdeps j hj)
      · have ha' : s.st a ≠ .pending := by
          simpa [setSt, hai] using ha
        exact hpers j ((hinv a).1 ha' j hj)
    · intro ha
      have : s.st a = .done := (hinv a).2 (by simpa [setSt] using ha)
      exact hpers a this
  | start i hr =>
    intro a
    constructor
    · intro ha j hj
      by_cases hai : a = i
      · subst hai
        exact hpers j ((hinv a).1 (by rw [hr]; decide) j hj)
      · have ha' : s.st a ≠ .pending := by
          simpa [setSt, hai] using ha
        exact hpers j ((hinv a).1 ha' j hj)
    · intro ha
      exact hpers a ((hinv a).2 (by simpa [setSt] using ha))
  | finish i node vals hr _ _ =>
    intro a
    constructor
    · intro ha j hj
      by_cases hai : a = i
      · subst hai
        exact hpers j ((hinv a).1 (by rw [hr]; decide) j hj)
      · have ha' : s.st a ≠ .pending := by
          simpa [recordRes, hai] using ha
        exact hpers j ((hinv a).1 ha' j hj)
    · intro ha
      by_cases hai : a = i
      · subst hai; simp [recordRes]
      · have : (s.res a).isSome = true := by
          simpa [recordRes, hai] using ha
        have := (hinv a).2 this
        have := hpers a this
        simpa [recordRes, hai] using this
  | fail i hr =>
    intro a
    constructor
    · intro ha j hj
      by_cases hai : a = i
      · subst hai
        exact hpers j ((hinv a).1 (by rw [hr]; decide) j hj)
      · have ha' : s.st a ≠ .pending := by
          simpa [setSt, hai] using ha
        exact hpers j ((hinv a).1 ha' j hj)
    · intro ha
      exact hpers a ((hinv a).2 (by simpa [setSt] using ha))

theorem reachable_inv (g : Defs) (s : SchedState) (hr : Reachable g s) :
    DepsInv g s := by
  induction hr with
  | refl => exact initState_inv g
  | tail h₁ h₂ ih => exact step_preserves_inv g h₂ ih

/-- C7: throughout every execution — every state reachable from the
all-PENDING initial state — the ExecutionResult never contains a value
for a task whose dependencies have not all completed; whenever a task is
RUNNING or DONE its dependencies are all DONE already (so a dependency's
DONE transition strictly precedes its dependent's RUNNING transition);
and a PENDING task can move to READY exactly when every task it depends
on is DONE. -/
theorem executionResult_never_early (g : Defs) (s : SchedState)
    (hr : Reachable g s) : SchedulerInvariant g s := by
  have hinv := reachable_inv g s hr
  refine ⟨?_, ?_, ?_⟩
  · intro i hres j hj
    have hdone := (hinv i).2 hres
    exact (hinv i).1 (by rw [hdone]; decide) j hj
  · intro i hst j hj
    rcases hst with h | h <;> exact (hinv i).1 (by rw [h]; decide) j hj
  · intro i
    constructor
    · rintro ⟨s', hstep, hready, hpend⟩
      refine ⟨hpend, ?_⟩
      cases hstep with
      | toReady a hp hdeps =>
        by_cases hia : i = a
        · subst hia; exact hdeps
        · exfalso
          have : s.st i = .ready := by simpa [setSt, hia] using hready
          rw [hpend] at this
          exact absurd this (by decide)
      | start a ha =>
        exfalso
        by_cases hia : i = a
        · subst hia
          simp [setSt] at hready
        · have : s.st i = .ready := by simpa [setSt, hia] using hready
          rw [hpend] at this
          exact absurd this (by decide)
      | finish a node vals ha _ _ =>
        exfalso
        by_cases hia : i = a
        · subst hia
          simp [recordRes] at hready
        · have : s.st i = .ready := by simpa [recordRes, hia] using hready
          rw [hpend] at this
          exact absurd this (by decide)
      | fail a ha =>
        exfalso
        by_cases hia : i = a
        · subst hia
          simp [setSt] at hready
        · have : s.st i = .ready := by simpa [setSt, hia] using hready
          rw [hpend] at this
          exact absurd this (by decide)
    · rintro ⟨hpend, hdeps⟩
      exact ⟨setSt s i .ready, Step.toReady s i hpend hdeps, by simp [setSt], hpend⟩

/-- C7 witness: the invariant holds at the sample graph's initial state,
reached by the empty execution. -/
theorem executionResult_never_early_witness : SchedulerInvariant gW initState :=
  executionResult_never_early gW initState Relation.ReflTransGen.refl

/-! ## Cancellation

Modelled from the spec: cancelling a pending `compute()` call prevents
not-yet-started tasks from starting but does not interrupt already-running
task callables. -/

/-- A `compute()` call's state under cancellation: each task's lifecycle
state plus whether the call has been cancelled. -/
structure CState where
  st : ℕ → TState
  cancelled : Bool

/-- Update one task's lifecycle state, keeping the cancellation flag. -/
def setCSt (s : CState) (i : ℕ) (t : TState) : CState :=
  ⟨fun j => if j = i then t else s.st j, s.cancelled⟩

/-- The transition relation of a cancellable call: a READY task may start
only while the call is not cancelled; a RUNNING task may always run to
completion; cancellation may happen at any time and is permanent. -/
inductive CStep (g : Defs) : CState → CState → Prop
  | toReady (s : CState) (i : ℕ) :
      s.st i = .pending →
      (∀ j ∈ depsList g i, s.st j = .done) →
      CStep g s (setCSt s i .ready)
  | start (s : CState) (i : ℕ) :
      s.st i = .ready →
      s.cancelled = false →
      CStep g s (setCSt s i .running)
  | finish (s : CState) (i : ℕ) :
      s.st i = .running →
      CStep g s (setCSt s i .done)
  | cancel (s : CState) :
      CStep g s ⟨s.st, true⟩

/-- A task has started once it is RUNNING, or has run to completion. -/
def started (s : CState) (i : ℕ) : Prop := s.st i = .running ∨ s.st i = .done

theorem cstep_cancelled_persists (g : Defs) {s t : CState}
    (h : CStep g s t) (hc : s.cancelled = true) : t.cancelled = true := by
  cases h with
  | toReady i h1 h2 => exact hc
  | start i h1 h2 => rw [hc] at h2; cases h2
  | finish i h1 => exact hc
  | cancel => rfl

theorem crtg_cancelled_persists (g : Defs) {s t : CState}
    (h : Relation.ReflTransGen (CStep g) s t) (hc : s.cancelled = true) :
    t.cancelled = true := by
  induction h with
  | refl => exact hc
  | tail h₁ h₂ ih => exact cstep_cancelled_persists g h₂ ih

/-- After cancellation a single step never changes the started set. -/
theorem cstep_started_eq (g : Defs) {s t : CState}
    (h : CStep g s t) (hc : s.cancelled = true) :
    ∀ i, started t i ↔ started s i := by
  cases h with
  | toReady a h1 h2 =>
    intro i
    by_cases hia : i = a
    · subst hia; simp [started, setCSt, h1]
    · simp [started, setCSt, hia]
  | start a h1 h2 => rw [hc] at h2; cases h2
  | finish a h1 =>
    intro i
    by_cases hia : i = a
    · subst hia; simp [started, setCSt, h1]
    · simp [started, setCSt, hia]
  | cancel => intro i; simp [started]

/-- C9: once a `compute()` call is cancelled, along any further execution
the set of started tasks stays exactly what it was at cancellation — no
not-yet-started task ever starts — while every already-running task can
still run, uninterrupted, to DONE in one step. -/
theorem cancellation_stops_new_starts (g : Defs) (s s' : CState)
    (hc : s.cancelled = true)
    (hsteps : Relation.ReflTransGen (CStep g) s s') :
    (∀ i, started s' i ↔ started s i) ∧
    (∀ i, s.st i = .running → ∃ t, CStep g s t ∧ t.st i = .done) := by
  refine ⟨?_, fun i hrun => ⟨setCSt s i .done, CStep.finish s i hrun, by simp [setCSt]⟩⟩
  induction hsteps with
  | refl => exact fun i => Iff.rfl
  | tail h₁ h₂ ih =>
    intro i
    have hcb := crtg_cancelled_persists g h₁ hc
    exact (cstep_started_eq g h₂ hcb i).trans (ih i)

/-- Five independent tasks, no dependencies. -/
def g5 : Defs :=
  [(0, ⟨[], fun _ => 0⟩), (1, ⟨[], fun _ => 0⟩), (2, ⟨[], fun _ => 0⟩),
   (3, ⟨[], fun _ => 0⟩), (4, ⟨[], fun _ => 0⟩)]

/-- The cancellation scenario: 2 of the 5 independent tasks have started
when the call is cancelled. -/
def cancelScenario : CState :=
  ⟨fun i => if i < 2 then .running else .pending, true⟩

/-- C9 witness: in the scenario, after one of the two running tasks
finishes, the started set is still exactly {0, 1} — none of the other 3
tasks has started — and each running task can finish. -/
theorem cancellation_stops_new_starts_witness :
    (∀ i, started (setCSt cancelScenario 0 .done) i ↔ started cancelScenario i) ∧
    (∀ i, cancelScenario.st i = .running →
      ∃ t, CStep g5 cancelScenario t ∧ t.st i = .done) :=
  cancellation_stops_new_starts g5 cancelScenario (setCSt cancelScenario 0 .done) rfl
    (Relation.ReflTransGen.single (CStep.finish cancelScenario 0 rfl))

/-! ## Failure semantics

Modelled from the spec: a FAILED task causes the parent `compute()` call
to fail with the originating error wrapped as a TaskExecutionError
identifying the failing task; independent sibling tasks keep their
results retrievable under thread/process/distributed backends, while the
synchronous backend aborts at the first failure point it reaches. -/

/-- A fallible flat-graph node: dependency ids plus a callable that may
raise with a message. -/
structure FNode where
  deps : List ℕ
  op : List ℚ → Except String ℚ

/-- A fallible flat task graph. -/
abbrev FDefs := List (ℕ × FNode)

/-- Evaluation errors: the TaskExecutionError wrapping the raised message
and identifying the failing task's id, or build-shape errors (missing id,
recursion depth exhausted) that a validated acyclic graph never hits. -/
inductive EvalErr where
  | taskFailed : ℕ → String → EvalErr
  | missing : ℕ → EvalErr
  | depth : EvalErr
deriving DecidableEq, Repr

/-- Combine a list of evaluation outcomes, propagating the first error. -/
def exceptList : List (Except EvalErr ℚ) → Except EvalErr (List ℚ)
  | [] => .ok []
  | .ok v :: rest =>
    match exceptList rest with
    | .ok vs => .ok (v :: vs)
    | .error e => .error e
  | .error e :: _ => .error e

/-- Demand-driven evaluation of one requested task id: evaluate its
dependencies, then its callable; a raise is wrapped as a
TaskExecutionError carrying this task's id, and a dependency's error
propagates unchanged, so the surfaced error identifies the originating
failing task. -/
def evalExc (g : FDefs) : ℕ → ℕ → Except EvalErr ℚ
  | 0, _ => .error .depth
  | fuel + 1, i =>
    match g.lookup i with
    | none => .error (.missing i)
    | some node =>
      match exceptList (node.deps.map (evalExc g fuel)) with
      | .error e => .error e
      | .ok vs =>
        match node.op vs with
        | .ok v => .ok v
        | .error m => .error (.taskFailed i m)

/-- The synchronous backend on a fallible graph: execute the schedule in
order and abort at the first failure point reached; returns the ids
actually executed and the error, if any. -/
def syncRun (g : FDefs) (res : ℕ → Option ℚ) : List ℕ → List ℕ × Option EvalErr
  | [] => ([], none)
  | i :: rest =>
    match g.lookup i with
    | none => ([i], some (.missing i))
    | some node =>
      match resolveAll res node.deps with
      | none => ([i], some .depth)
      | some vs =>
        match node.op vs with
        | .error m => ([i], some (.taskFailed i m))
        | .ok v =>
          let next := syncRun g (fun j => if j = i then some v else res j) rest
          (i :: next.1, next.2)

theorem exceptList_error_mem :
    ∀ (l : List (Except EvalErr ℚ)) (e : EvalErr),
      exceptList l = .error e → Except.error e ∈ l := by
  intro l
  induction l with
  | nil => intro e h; simp [exceptList] at h
  | cons x rest ih =>
    intro e h
    cases x with
    | ok v =>
      rw [exceptList] at h
      cases hrest : exceptList rest with
      | ok vs => rw [hrest] at h; cases h
      | error e' =>
        rw [hrest] at h
        injection h with he
        subst he
        exact List.mem_cons_of_mem _ (ih _ hrest)
    | error e' =>
      rw [exceptList] at h
      injection h with he
      subst he
      exact List.mem_cons_self _ _

/-- A surfaced TaskExecutionError always originates at a task whose own
callable raised on its resolved inputs. -/
theorem evalExc_error_originates (g : FDefs) :
    ∀ (fuel i j : ℕ) (m : String),
      evalExc g fuel i = .error (.taskFailed j m) →
      ∃ node vs, g.lookup j = some node ∧ node.op vs = .error m := by
  intro fuel
  induction fuel with
  | zero => intro i j m h; simp [evalExc] at h
  | succ fuel ih =>
    intro i j m h
    cases hg : g.lookup i with
    | none => simp [evalExc, hg] at h
    | some node =>
      simp only [evalExc, hg] at h
      cases hl : exceptList (node.deps.map (evalExc g fuel)) with
      | error e =>
        simp only [hl] at h
        injection h with he
        subst he
        have hmem := exceptList_error_mem _ _ hl
        obtain ⟨d, _, hd⟩ := List.mem_map.mp hmem
        exact ih d j m hd
      | ok vs =>
        simp only [hl] at h
        cases hop : node.op vs with
        | ok v => simp [hop] at h
        | error m' =>
          simp only [hop] at h
          injection h with he
          injection he with he1 he2
          subst he1
          subst he2
          exact ⟨node, vs, hg, hop⟩

/-- The 7-file scenario (part_000 lines 578-617, with one failing
loader): read tasks 0-6 load the seven per-core CSV files — file 3's
loader raises — mean tasks 10-16 and count tasks 20-26 each depend on
their file's read task, and combine task 30 depends on all mean/count
pairs. -/
def g7 : FDefs :=
  [(0, ⟨[], fun _ => .ok 80⟩),
   (1, ⟨[], fun _ => .ok 81⟩),
   (2, ⟨[], fun _ => .ok 82⟩),
   (3, ⟨[], fun _ => .error ("read failure")⟩),
   (4, ⟨[], fun _ => .ok 84⟩),
   (5, ⟨[], fun _ => .ok 85⟩),
   (6, ⟨[], fun _ => .ok 86⟩),
   (10, ⟨[0], fun vs => .ok (vs.headD 0)⟩),
   (11, ⟨[1], fun vs => .ok (vs.headD 0)⟩),
   (12, ⟨[2], fun vs => .ok (vs.headD 0)⟩),
   (13, ⟨[3], fun vs => .ok (vs.headD 0)⟩),
   (14, ⟨[4], fun vs => .ok (vs.headD 0)⟩),
   (15, ⟨[5], fun vs => .ok (vs.headD 0)⟩),
   (16, ⟨[6], fun vs => .ok (vs.headD 0)⟩),
   (20, ⟨[0], fun vs => .ok (vs.headD 0)⟩),
   (21, ⟨[1], fun vs => .ok (vs.headD 0)⟩),
   (22, ⟨[2], fun vs => .ok (vs.headD 0)⟩),
   (23, ⟨[3], fun vs => .ok (vs.headD 0)⟩),
   (24, ⟨[4], fun vs => .ok (vs.headD 0)⟩),
   (25, ⟨[5], fun vs => .ok (vs.headD 0)⟩),
   (26, ⟨[6], fun vs => .ok (vs.headD 0)⟩),
   (30, ⟨[10, 11, 12, 13, 14, 15, 16, 20, 21, 22, 23, 24, 25, 26],
     fun vs => .ok (vs.headD 0)⟩)]

/-- C8: a failing task makes the parent `compute()` fail with the
originating error: for every graph, a surfaced TaskExecutionError points
at a task whose own callable raised (never a healthy task); in the
7-file scenario with file 3's loader raising, computing the combine
output fails with the TaskExecutionError identifying task 3, the other
six files' mean results stay retrievable when requested independently
(which is how the thread/process/distributed backends leave independent
siblings unaffected), and the synchronous backend aborts at the first
failure point reached: it executes exactly tasks 0-3 of its schedule and
never starts the later ones. -/
theorem failed_task_semantics :
    (∀ (g : FDefs) (fuel i j : ℕ) (m : String),
      evalExc g fuel i = .error (.taskFailed j m) →
      ∃ node vs, g.lookup j = some node ∧ node.op vs = .error m) ∧
    evalExc g7 3 30 = .error (.taskFailed 3 ("read failure")) ∧
    [10, 11, 12, 14, 15, 16].map (evalExc g7 3) =
      [.ok 80, .ok 81, .ok 82, .ok 84, .ok 85, .ok 86] ∧
    syncRun g7 (fun _ => none)
        [0, 1, 2, 3, 4, 5, 6, 10, 11, 12, 13, 14, 15, 16, 30] =
      ([0, 1, 2, 3], some (.taskFailed 3 ("read failure"))) :=
  ⟨fun g => evalExc_error_originates g, rfl, rfl, rfl⟩

/-- C8 witness: the origination conjunct applied at the scenario — the
error surfaced for the combine output points at task 3, whose callable
indeed raised. -/
theorem failed_task_semantics_witness :
    ∃ node vs, g7.lookup 3 = some node ∧
      node.op vs = .error ("read failure") :=
  failed_task_semantics.1 g7 3 30 3 ("read failure") rfl

end DaskSpec
